import Mathlib

/-!
Verification of the `dirtree` package (a mutable directory-tree container).

The Go code stores nodes on the heap and links them with pointers
(`parent *Dirent`, `children map[string]*Dirent`).  We embed this as an
explicit heap: a list of `Node` records indexed by natural-number ids.
A `nil` children map is modelled as `none`, an allocated map as
`some m` with `m` an association list (Go maps have unique keys, which
every operation below preserves, so first-match lookup is the map
semantics).  Mutating operations take and return heaps; a Go `panic`
is a distinguished `fault` result constructor.

Read-only traversals (`Tree`, `Find`) and the sort utilities operate on
well-formed acyclic trees, which we embed a second time as an inductive
tree type `DTree`; this mirrors what those functions see through the
pointer structure of a tree that satisfies the package invariants.
-/

namespace Dirtree

/-- One heap cell: the fields of Go's `Dirent` struct.  `children = none`
models a nil (never allocated) map, `some m` an allocated map. -/
structure Node where
  name : String
  parent : Option Nat
  children : Option (List (String × Nat))
deriving Repr, DecidableEq

/-- The heap: node id `i` is the `i`-th element; allocation appends. -/
abbrev Heap := List Node

/-- Default cell used for out-of-range reads (never reached by the
operations when ids are valid, which theorems hypothesise). -/
def dummy : Node := ⟨"", none, none⟩

/-- Read the node at id `i`. -/
def getN : Heap → Nat → Node
  | [], _ => dummy
  | nd :: _, 0 => nd
  | _ :: h, n + 1 => getN h n

/-- First-match lookup in an association list; the semantics of
`m[k]` on a Go map with unique keys. -/
def mapLookup : List (String × Nat) → String → Option Nat
  | [], _ => none
  | (k, v) :: m, key => if k = key then some v else mapLookup m key

/-- Go map assignment `m[k] = v`: replace the binding if the key is
present, otherwise add it. -/
def mapInsert : List (String × Nat) → String → Nat → List (String × Nat)
  | [], k, v => [(k, v)]
  | (k', v') :: m, k, v =>
    if k' = k then (k, v) :: m else (k', v') :: mapInsert m k v

/-- Go `delete(m, k)`: remove the binding of `k` (maps keep unique
keys, so removing the first occurrence is exact). -/
def mapErase : List (String × Nat) → String → List (String × Nat)
  | [], _ => []
  | (k', v') :: m, k => if k' = k then m else (k', v') :: mapErase m k

/-- The children map of node `d`, read through a nil map as Go does
(reads on a nil map yield zero values). -/
def childrenL (h : Heap) (d : Nat) : List (String × Nat) :=
  ((getN h d).children).getD []

/-- Overwrite the cell at id `i`. -/
def setN (h : Heap) (i : Nat) (nd : Node) : Heap := h.set i nd

/-- Assign the `name` field of node `i`. -/
def setName (h : Heap) (i : Nat) (s : String) : Heap :=
  setN h i { getN h i with name := s }

/-- Assign the `parent` field of node `i`. -/
def setParent (h : Heap) (i : Nat) (p : Option Nat) : Heap :=
  setN h i { getN h i with parent := p }

/-- Assign the `children` field of node `i` to an allocated map. -/
def setChildren (h : Heap) (i : Nat) (m : List (String × Nat)) : Heap :=
  setN h i { getN h i with children := some m }

/-- Allocate a fresh cell; its id is the old heap length. -/
def alloc (h : Heap) (nd : Node) : Nat × Heap := (h.length, h ++ [nd])

/-- Go `New(name)`: a one-node world holding a fresh root (children map
nil, no parent). -/
def New (name : String) : Heap × Nat := ([⟨name, none, none⟩], 0)

/-- Go `(*Dirent).Add(name)`: reject empty and "/" names, reject an
existing child, else allocate a child (lazily allocating the children
map) and link it under `name`. -/
def Add (h : Heap) (d : Nat) (name : String) : Except String (Nat × Heap) :=
  if name = "" ∨ name = "/" then .error "invalid name"
  else if (mapLookup (childrenL h d) name).isSome then
    .error "entry already exists"
  else
    let c := h.length
    let h1 := h ++ [⟨name, some d, none⟩]
    .ok (c, setChildren h1 d (mapInsert (childrenL h1 d) name c))

/-- Validation pre-pass of Go `Make`: first offending name in list
order, checking emptiness/"/" before existing-child collision, against
the children map as it was before any mutation. -/
def mkCheck (h : Heap) (d : Nat) : List String → Option String
  | [] => none
  | n :: ns =>
    if n = "" ∨ n = "/" then some ("invalid name: " ++ n)
    else if (mapLookup (childrenL h d) n).isSome then
      some ("entry already exists: " ++ n)
    else mkCheck h d ns

/-- Go `Make`'s `if d.children == nil` map allocation. -/
def ensureChildren (h : Heap) (d : Nat) : Heap :=
  match (getN h d).children with
  | none => setChildren h d []
  | some _ => h

/-- One iteration of Go `Make`'s creation loop: allocate a fresh child
and assign it into `d`'s children map under its name. -/
def addFresh (h : Heap) (d : Nat) (n : String) : Heap :=
  let c := h.length
  let h1 := h ++ [⟨n, some d, none⟩]
  setChildren h1 d (mapInsert (childrenL h1 d) n c)

/-- Go `Make`'s creation loop over the requested names. -/
def makeGo (h : Heap) (d : Nat) : List String → Heap
  | [] => h
  | n :: ns => makeGo (addFresh h d n) d ns

/-- Go `(*Dirent).Make(names...)`: validate every name, then create
one child per name in order (a duplicate name overwrites the earlier
binding, as Go map assignment does). -/
def Make (h : Heap) (d : Nat) (names : List String) : Except String Heap :=
  match mkCheck h d names with
  | some e => .error e
  | none => .ok (makeGo (ensureChildren h d) d names)

/-- Result of `Unlink`: a returned boolean, or the `panic` in its
defensive check. -/
inductive UnlinkRes where
  | ret (b : Bool) (h : Heap)
  | fault (h : Heap)
deriving Repr, DecidableEq

/-- Go `(*Dirent).Unlink()`: no-op `false` for a root; otherwise clear
the parent pointer, then look the receiver up in the old parent's map
under the receiver's name — absent gives `false`, a different node
gives the `panic`, the receiver itself is deleted with `true`. -/
def Unlink (h : Heap) (d : Nat) : UnlinkRes :=
  match (getN h d).parent with
  | none => .ret false h
  | some p =>
    let h1 := setParent h d none
    match mapLookup (childrenL h1 p) (getN h1 d).name with
    | none => .ret false h1
    | some c =>
      if c ≠ d then .fault h1
      else .ret true (setChildren h1 p (mapErase (childrenL h1 p) (getN h1 d).name))

/-- Result of `Move`: a returned error, the runtime fault of writing a
nil map (carrying the heap as mutated so far), or success. -/
inductive MoveRes where
  | err (e : String) (h : Heap)
  | fault (h : Heap)
  | ok (h : Heap)
deriving Repr, DecidableEq

/-- Go `(*Dirent).Move(dst)`: reject an unnamed receiver and a name
collision at the destination, else `Unlink` then assign into
`dst.children` — which faults if that map was never allocated (Move
has no nil-map check) — and finally set the parent pointer. -/
def Move (h : Heap) (d dst : Nat) : MoveRes :=
  if (getN h d).name = "" then .err "cannot move unnamed directory" h
  else if (mapLookup (childrenL h dst) (getN h d).name).isSome then
    .err "entry already exists at destination" h
  else
    match Unlink h d with
    | .fault h1 => .fault h1
    | .ret _ h1 =>
      match (getN h1 dst).children with
      | none => .fault h1
      | some m =>
        .ok (setParent (setChildren h1 dst (mapInsert m (getN h1 d).name d)) d (some dst))

/-- Go `(*Dirent).Rename(name)`: normalise "/" to the empty name; a
non-root receiver rejects the empty name and any existing binding of
the requested name in the parent's map (the receiver's own binding
included, since it is keyed by the old name); then assign the `name`
field only — the parent's map key is not updated. -/
def Rename (h : Heap) (d : Nat) (name : String) : Except String Heap :=
  let n := if name = "/" then "" else name
  match (getN h d).parent with
  | some p =>
    if n = "" then .error "non-root directory must have name"
    else if (mapLookup (childrenL h p) n).isSome then
      .error "another entry with requested name exists in parent"
    else .ok (setName h d n)
  | none => .ok (setName h d n)

/-- Names of the strict ancestors of a node, nearest first: the
`for p != nil` walk of Go `PathDelim`, with fuel bounding the chain
length (the walk terminates on the acyclic heaps the claims concern). -/
def upNames (h : Heap) : Nat → Option Nat → List String
  | 0, _ => []
  | _, none => []
  | fuel + 1, some i => (getN h i).name :: upNames h fuel (getN h i).parent

/-- Go `(*Dirent).PathDelim(delim)`: collect names up to the root,
reverse to root-first order, blank the root segment when it equals the
delimiter, join. -/
def PathDelim (h : Heap) (d : Nat) (delim : String) : String :=
  let parts := ((getN h d).name :: upNames h h.length (getN h d).parent).reverse
  String.intercalate delim
    (match parts with
     | [] => []
     | p :: ps => (if p = delim then "" else p) :: ps)

/-- Go `(*Dirent).Path()`. -/
def Path (h : Heap) (d : Nat) : String := PathDelim h d "/"

/-- A chain of `Add` calls, each on the node the previous call
created; `none` if any call errors. -/
def addChain (h : Heap) (d : Nat) : List String → Option (Heap × Nat)
  | [] => some (h, d)
  | n :: ns =>
    match Add h d n with
    | .error _ => none
    | .ok (c, h') => addChain h' c ns

/-- Invariant I1 of the spec: every node with a parent is bound in the
parent's children map under its own name. -/
def I1 (h : Heap) : Prop :=
  ∀ i < h.length, ∀ p, (getN h i).parent = some p →
    mapLookup (childrenL h p) (getN h i).name = some i

instance (h : Heap) : Decidable (I1 h) := by
  unfold I1; infer_instance

/-- Does the parent chain of `i` reach a parentless node within `fuel`
steps? -/
def reachRoot (h : Heap) : Nat → Nat → Bool
  | 0, _ => false
  | fuel + 1, i =>
    match (getN h i).parent with
    | none => true
    | some p => reachRoot h fuel p

/-- Invariant I4 of the spec (acyclicity): every node's parent chain
terminates at a root; a heap length of fuel suffices for any acyclic
chain. -/
def I4 (h : Heap) : Prop :=
  ∀ i < h.length, reachRoot h (h.length + 1) i = true

instance (h : Heap) : Decidable (I4 h) := by
  unfold I4; infer_instance

/-! ### Basic heap access lemmas -/

theorem getN_set_self {h : Heap} {i : Nat} (nd : Node) (hi : i < h.length) :
    getN (setN h i nd) i = nd := by
  induction h generalizing i with
  | nil => simp at hi
  | cons a t ih =>
    cases i with
    | zero => rfl
    | succ n =>
      simp only [setN, List.set, getN]
      exact ih (by simpa using hi)

theorem getN_set_ne {h : Heap} {i j : Nat} (nd : Node) (hij : i ≠ j) :
    getN (setN h i nd) j = getN h j := by
  induction h generalizing i j with
  | nil => rfl
  | cons a t ih =>
    cases i with
    | zero => cases j with
      | zero => exact absurd rfl hij
      | succ m => rfl
    | succ n =>
      cases j with
      | zero => rfl
      | succ m =>
        simp only [setN, List.set, getN]
        exact ih (fun hh => hij (by rw [hh]))

theorem getN_append_lt {h : Heap} {i : Nat} (nd : Node) (hi : i < h.length) :
    getN (h ++ [nd]) i = getN h i := by
  induction h generalizing i with
  | nil => simp at hi
  | cons a t ih =>
    cases i with
    | zero => rfl
    | succ n => exact ih (by simpa using hi)

theorem getN_append_self (h : Heap) (nd : Node) :
    getN (h ++ [nd]) h.length = nd := by
  induction h with
  | nil => rfl
  | cons a t ih => simpa using ih

theorem length_setN (h : Heap) (i : Nat) (nd : Node) :
    (setN h i nd).length = h.length := by
  simp [setN]

theorem mapLookup_insert_self (m : List (String × Nat)) (k : String) (v : Nat) :
    mapLookup (mapInsert m k v) k = some v := by
  induction m with
  | nil => simp [mapInsert, mapLookup]
  | cons a t ih =>
    obtain ⟨k', v'⟩ := a
    by_cases hk : k' = k
    · simp [mapInsert, hk, mapLookup]
    · simp [mapInsert, hk, mapLookup, ih]

theorem mapLookup_insert_ne (m : List (String × Nat)) {k k' : String} (v : Nat)
    (hk : k ≠ k') : mapLookup (mapInsert m k v) k' = mapLookup m k' := by
  induction m with
  | nil => simp [mapInsert, mapLookup, hk]
  | cons a t ih =>
    obtain ⟨k0, v0⟩ := a
    by_cases h0 : k0 = k
    · simp [mapInsert, h0, mapLookup, hk]
    · simp only [mapInsert, h0, if_false, mapLookup]
      by_cases h1 : k0 = k'
      · simp [h1]
      · simp [h1, ih]

theorem setN_oob {h : Heap} {i : Nat} (nd : Node) (hi : h.length ≤ i) :
    setN h i nd = h := by
  induction h generalizing i with
  | nil => rfl
  | cons a t ih =>
    cases i with
    | zero => simp at hi
    | succ n =>
      simp only [setN, List.set]
      have := ih (i := n) (by simpa using hi)
      simpa [setN] using this

theorem getN_setParent_name (h : Heap) (d : Nat) (q : Option Nat) (j : Nat) :
    (getN (setParent h d q) j).name = (getN h j).name := by
  by_cases hj : d = j
  · subst hj
    by_cases hd : d < h.length
    · rw [setParent, getN_set_self _ hd]
    · rw [setParent, setN_oob _ (Nat.le_of_not_lt hd)]
  · rw [setParent, getN_set_ne _ hj]

theorem getN_setParent_children (h : Heap) (d : Nat) (q : Option Nat) (j : Nat) :
    (getN (setParent h d q) j).children = (getN h j).children := by
  by_cases hj : d = j
  · subst hj
    by_cases hd : d < h.length
    · rw [setParent, getN_set_self _ hd]
    · rw [setParent, setN_oob _ (Nat.le_of_not_lt hd)]
  · rw [setParent, getN_set_ne _ hj]

theorem childrenL_setParent (h : Heap) (d : Nat) (q : Option Nat) (j : Nat) :
    childrenL (setParent h d q) j = childrenL h j := by
  rw [childrenL, childrenL, getN_setParent_children]

theorem getN_setChildren_name (h : Heap) (d : Nat) (m : List (String × Nat)) (j : Nat) :
    (getN (setChildren h d m) j).name = (getN h j).name := by
  by_cases hj : d = j
  · subst hj
    by_cases hd : d < h.length
    · rw [setChildren, getN_set_self _ hd]
    · rw [setChildren, setN_oob _ (Nat.le_of_not_lt hd)]
  · rw [setChildren, getN_set_ne _ hj]

theorem getN_setChildren_parent (h : Heap) (d : Nat) (m : List (String × Nat)) (j : Nat) :
    (getN (setChildren h d m) j).parent = (getN h j).parent := by
  by_cases hj : d = j
  · subst hj
    by_cases hd : d < h.length
    · rw [setChildren, getN_set_self _ hd]
    · rw [setChildren, setN_oob _ (Nat.le_of_not_lt hd)]
  · rw [setChildren, getN_set_ne _ hj]

theorem getN_setName_parent (h : Heap) (d : Nat) (s : String) (j : Nat) :
    (getN (setName h d s) j).parent = (getN h j).parent := by
  by_cases hj : d = j
  · subst hj
    by_cases hd : d < h.length
    · rw [setName, getN_set_self _ hd]
    · rw [setName, setN_oob _ (Nat.le_of_not_lt hd)]
  · rw [setName, getN_set_ne _ hj]

theorem getN_setName_children (h : Heap) (d : Nat) (s : String) (j : Nat) :
    (getN (setName h d s) j).children = (getN h j).children := by
  by_cases hj : d = j
  · subst hj
    by_cases hd : d < h.length
    · rw [setName, getN_set_self _ hd]
    · rw [setName, setN_oob _ (Nat.le_of_not_lt hd)]
  · rw [setName, getN_set_ne _ hj]

/-! ### Concrete heaps used by the counterexamples

They arise from call sequences recorded in the theorems below:
`heapRA` is `New("r")` followed by `Add("a")`; `heapRB` is `heapRA`
after `Rename` of the child to `"b"`; the four-node heaps extend the
chain with further `Add`s and an `Unlink`. -/

def heapRA : Heap := [⟨"r", none, some [("a", 1)]⟩, ⟨"a", some 0, none⟩]

def heapRB : Heap := [⟨"r", none, some [("a", 1)]⟩, ⟨"b", some 0, none⟩]

def heapAB : Heap :=
  [⟨"r", none, some [("a", 1)]⟩, ⟨"a", some 0, some [("b", 2)]⟩, ⟨"b", some 1, none⟩]

def heapABC : Heap :=
  [⟨"r", none, some [("a", 1)]⟩, ⟨"a", some 0, some [("b", 2)]⟩,
   ⟨"b", some 1, some [("c", 3)]⟩, ⟨"c", some 2, none⟩]

def heapM : Heap :=
  [⟨"r", none, some [("a", 1)]⟩, ⟨"a", some 0, some [("b", 2)]⟩,
   ⟨"b", some 1, some []⟩, ⟨"c", none, none⟩]

def heapM2 : Heap :=
  [⟨"r", none, some []⟩, ⟨"a", some 2, some [("b", 2)]⟩,
   ⟨"b", some 1, some [("a", 1)]⟩, ⟨"c", none, none⟩]

/-- C1: the claim that I1–I4 hold after every valid call fails on the
code.  A successful `Rename` of a non-root node does not update the
parent's map key, violating I1 (`r`'s map still binds "a" to the node
now named "b"); a successful `Move` whose destination lies inside the
receiver's own subtree creates a parent cycle, violating I4.  Every
step of both call sequences is a completed, successful call. -/
theorem c1_rename_move_break_invariants :
    Add (New "r").1 0 "a" = .ok (1, heapRA)
    ∧ Rename heapRA 1 "b" = .ok heapRB
    ∧ I1 heapRA ∧ ¬ I1 heapRB
    ∧ Add heapRA 1 "b" = .ok (2, heapAB)
    ∧ Add heapAB 2 "c" = .ok (3, heapABC)
    ∧ Unlink heapABC 3 = .ret true heapM
    ∧ I1 heapM ∧ I4 heapM
    ∧ Move heapM 1 2 = .ok heapM2
    ∧ ¬ I4 heapM2 := by
  refine ⟨by rfl, by rfl, by decide, by decide, by rfl, by rfl,
    by rfl, by decide, by decide, by rfl, by decide⟩

/-- C3 (counterexample): when the parent's mapping does not contain
the receiver under the receiver's own name, `Unlink` returns the
ordinary boolean `false` (after clearing the parent pointer) — it does
not fail fatally as the claim states.  The heap is reached by valid
calls (`New`, `Add`, then the `Rename` that desynchronised the map
key, see C1). -/
theorem c3_unlink_missing_returns_false :
    (getN heapRB 1).parent = some 0
    ∧ mapLookup (childrenL heapRB 0) (getN heapRB 1).name = none
    ∧ Unlink heapRB 1 = .ret false [⟨"r", none, some [("a", 1)]⟩, ⟨"b", none, none⟩] := by
  refine ⟨by decide, by decide, by decide⟩

/-- C3 (amended): `Unlink` on a root returns `false` and changes
nothing; when the parent's map has no entry under the receiver's name
it clears the parent pointer and returns `false`; it fails fatally
exactly when the map binds the receiver's name to a different node;
when the receiver is correctly bound it removes the entry, clears the
parent pointer and returns `true`. -/
theorem c3_unlink_cases (h : Heap) (d : Nat) :
    ((getN h d).parent = none → Unlink h d = .ret false h)
    ∧ (∀ p, (getN h d).parent = some p →
        mapLookup (childrenL h p) (getN h d).name = none →
        Unlink h d = .ret false (setParent h d none))
    ∧ (∀ p c, (getN h d).parent = some p →
        mapLookup (childrenL h p) (getN h d).name = some c → c ≠ d →
        Unlink h d = .fault (setParent h d none))
    ∧ (∀ p, (getN h d).parent = some p →
        mapLookup (childrenL h p) (getN h d).name = some d →
        Unlink h d = .ret true (setChildren (setParent h d none) p
          (mapErase (childrenL (setParent h d none) p) (getN h d).name))) := by
  refine ⟨?_, ?_, ?_, ?_⟩
  · intro hp
    unfold Unlink
    rw [hp]
  · intro p hp hl
    unfold Unlink
    rw [hp]
    simp only [childrenL_setParent, getN_setParent_name, hl]
  · intro p c hp hl hc
    unfold Unlink
    rw [hp]
    simp only [childrenL_setParent, getN_setParent_name, hl]
    simp [hc]
  · intro p hp hl
    unfold Unlink
    rw [hp]
    simp only [childrenL_setParent, getN_setParent_name, hl]
    simp

/-- C3 witness: the four cases of `c3_unlink_cases` evaluated on the
concrete heaps of this development. -/
theorem c3_unlink_witness :
    Unlink heapM 3 = .ret false heapM
    ∧ Unlink heapRB 1 = .ret false (setParent heapRB 1 none)
    ∧ Unlink heapRA 1 = .ret true (setChildren (setParent heapRA 1 none) 0
        (mapErase (childrenL (setParent heapRA 1 none) 0) (getN heapRA 1).name)) := by
  refine ⟨(c3_unlink_cases heapM 3).1 (by decide),
    (c3_unlink_cases heapRB 1).2.1 0 (by decide) (by decide),
    (c3_unlink_cases heapRA 1).2.2.2 0 (by decide) (by decide)⟩

/-- C4 (counterexample): renaming a non-root node to its own current
name fails with the already-exists error, because the existence check
in `Rename` does not exclude the receiver's own binding; the claim
says it succeeds. -/
theorem c4_rename_self_fails :
    (getN heapRA 1).name = "a"
    ∧ Rename heapRA 1 "a" = .error "another entry with requested name exists in parent" := by
  refine ⟨by decide, by rfl⟩

/-- C4 (amended): `Rename` normalises "/" to the empty name; a root is
renamed unconditionally; a non-root receiver fails with the
invalid-name error exactly when the normalised name is empty, and with
the already-exists error exactly when the parent's map binds the
normalised name at all — the receiver's own binding included, so
renaming a non-root node to its current name fails; otherwise only the
receiver's `name` field is assigned. -/
theorem c4_rename_cases (h : Heap) (d : Nat) (name : String) :
    ((getN h d).parent = none →
      Rename h d name = .ok (setName h d (if name = "/" then "" else name)))
    ∧ (∀ p, (getN h d).parent = some p → (if name = "/" then "" else name) = "" →
        Rename h d name = .error "non-root directory must have name")
    ∧ (∀ p, (getN h d).parent = some p → (if name = "/" then "" else name) ≠ "" →
        (mapLookup (childrenL h p) (if name = "/" then "" else name)).isSome →
        Rename h d name = .error "another entry with requested name exists in parent")
    ∧ (∀ p, (getN h d).parent = some p → (if name = "/" then "" else name) ≠ "" →
        mapLookup (childrenL h p) (if name = "/" then "" else name) = none →
        Rename h d name = .ok (setName h d (if name = "/" then "" else name))) := by
  refine ⟨?_, ?_, ?_, ?_⟩
  · intro hp
    unfold Rename
    rw [hp]
  · intro p hp hn
    unfold Rename
    rw [hp]
    simp [hn]
  · intro p hp hn hl
    unfold Rename
    rw [hp]
    simp [hn, hl]
  · intro p hp hn hl
    unfold Rename
    rw [hp]
    simp [hn, hl]

/-- C4 witness: the cases of `c4_rename_cases` evaluated on concrete
heaps: a root rename, the empty-name rejection, the collision
rejection, and a successful rename. -/
theorem c4_rename_witness :
    Rename heapRA 0 "/" = .ok (setName heapRA 0 "")
    ∧ Rename heapRA 1 "/" = .error "non-root directory must have name"
    ∧ Rename heapRA 1 "a" = .error "another entry with requested name exists in parent"
    ∧ Rename heapRA 1 "z" = .ok (setName heapRA 1 "z") := by
  refine ⟨(c4_rename_cases heapRA 0 "/").1 (by decide),
    (c4_rename_cases heapRA 1 "/").2.1 0 (by decide) (by decide),
    (c4_rename_cases heapRA 1 "a").2.2.1 0 (by decide) (by decide) (by decide),
    (c4_rename_cases heapRA 1 "z").2.2.2 0 (by decide) (by decide) (by decide)⟩

/-- C2 (counterexample): `Make("X","X")` on a childless node does not
fail — the validation pre-pass only checks names against the
pre-existing children, not against each other — and the duplicate
assignment overwrites, leaving exactly one child named "X". -/
theorem c2_make_duplicate_batch :
    Make [⟨"r", none, none⟩] 0 ["X", "X"]
      = .ok [⟨"r", none, some [("X", 2)]⟩, ⟨"X", some 0, none⟩, ⟨"X", some 0, none⟩]
    ∧ (childrenL [(⟨"r", none, some [("X", 2)]⟩ : Node),
        ⟨"X", some 0, none⟩, ⟨"X", some 0, none⟩] 0).length = 1 := by
  refine ⟨by rfl, by decide⟩

theorem getN_oob {h : Heap} {i : Nat} (hi : h.length ≤ i) : getN h i = dummy := by
  induction h generalizing i with
  | nil => rfl
  | cons a t ih =>
    cases i with
    | zero => simp at hi
    | succ n => exact ih (by simpa using hi)

/-- C9 (counterexample): a successful `Move` whose destination lies in
the receiver's own subtree changes a descendant of the receiver: in
`heapM` node 2 is a child of the receiver node 1, `Move` succeeds, and
node 2's cell gains the new child entry — so "every descendant of the
receiver is untouched" fails as stated. -/
theorem c9_move_into_subtree :
    (getN heapM 2).parent = some 1
    ∧ mapLookup (childrenL heapM 1) (getN heapM 2).name = some 2
    ∧ Move heapM 1 2 = .ok heapM2
    ∧ getN heapM2 2 ≠ getN heapM 2 := by
  refine ⟨by decide, by decide, by rfl, by decide⟩

theorem getN_setParent_ne (h : Heap) {i j : Nat} (q : Option Nat) (hij : i ≠ j) :
    getN (setParent h i q) j = getN h j := by
  rw [setParent, getN_set_ne _ hij]

theorem getN_setChildren_ne (h : Heap) {i j : Nat} (m : List (String × Nat))
    (hij : i ≠ j) : getN (setChildren h i m) j = getN h j := by
  rw [setChildren, getN_set_ne _ hij]

theorem length_setParent (h : Heap) (i : Nat) (q : Option Nat) :
    (setParent h i q).length = h.length := by
  simp [setParent, setN]

theorem length_setChildren (h : Heap) (i : Nat) (m : List (String × Nat)) :
    (setChildren h i m).length = h.length := by
  simp [setChildren, setN]

theorem unlink_eq_root (h : Heap) (d : Nat) (hp : (getN h d).parent = none) :
    Unlink h d = .ret false h := by
  rw [Unlink, hp]

theorem unlink_eq_missing (h : Heap) (d p : Nat) (hp : (getN h d).parent = some p)
    (hl : mapLookup (childrenL h p) (getN h d).name = none) :
    Unlink h d = .ret false (setParent h d none) := by
  rw [Unlink, hp]
  simp only [childrenL_setParent, getN_setParent_name, hl]

theorem unlink_eq_mismatch (h : Heap) (d p c : Nat) (hp : (getN h d).parent = some p)
    (hl : mapLookup (childrenL h p) (getN h d).name = some c) (hc : c ≠ d) :
    Unlink h d = .fault (setParent h d none) := by
  rw [Unlink, hp]
  simp only [childrenL_setParent, getN_setParent_name, hl]
  simp [hc]

theorem unlink_eq_hit (h : Heap) (d p : Nat) (hp : (getN h d).parent = some p)
    (hl : mapLookup (childrenL h p) (getN h d).name = some d) :
    Unlink h d = .ret true (setChildren (setParent h d none) p
      (mapErase (childrenL (setParent h d none) p) (getN h d).name)) := by
  rw [Unlink, hp]
  simp only [childrenL_setParent, getN_setParent_name, hl]
  simp

theorem move_eq_ok (h : Heap) (d dst : Nat) (b : Bool) (h1 : Heap)
    (m : List (String × Nat)) (hnm : (getN h d).name ≠ "")
    (hcol : mapLookup (childrenL h dst) (getN h d).name = none)
    (hu : Unlink h d = .ret b h1) (hch : (getN h1 dst).children = some m) :
    Move h d dst
      = .ok (setParent (setChildren h1 dst (mapInsert m (getN h1 d).name d)) d (some dst)) := by
  rw [Move, if_neg hnm, if_neg (by rw [hcol]; simp)]
  simp only [hu, hch]

theorem move_eq_fault_nil (h : Heap) (d dst : Nat) (b : Bool) (h1 : Heap)
    (hnm : (getN h d).name ≠ "")
    (hcol : mapLookup (childrenL h dst) (getN h d).name = none)
    (hu : Unlink h d = .ret b h1) (hch : (getN h1 dst).children = none) :
    Move h d dst = .fault h1 := by
  rw [Move, if_neg hnm, if_neg (by rw [hcol]; simp)]
  simp only [hu, hch]

theorem move_eq_fault_unlink (h : Heap) (d dst : Nat) (h1 : Heap)
    (hnm : (getN h d).name ≠ "")
    (hcol : mapLookup (childrenL h dst) (getN h d).name = none)
    (hu : Unlink h d = .fault h1) : Move h d dst = .fault h1 := by
  rw [Move, if_neg hnm, if_neg (by rw [hcol]; simp)]
  simp only [hu]

/-- C9 (amended): when `Move` fails (unnamed receiver or name
collision at the destination) the returned heap is exactly the input
heap; when it succeeds — for a receiver distinct from the destination
and not its own parent — every node other than the receiver, the
receiver's old parent and the destination is unchanged, and the
receiver keeps its name and children while its parent pointer becomes
the destination.  (Descendants of the receiver are therefore untouched
except for a destination lying inside the receiver's own subtree,
which gains the new child entry.) -/
theorem c9_move_frame (h : Heap) (d dst : Nat) :
    (((getN h d).name = "" ∨ (mapLookup (childrenL h dst) (getN h d).name).isSome) →
      ∃ e, Move h d dst = .err e h)
    ∧ (∀ h', d ≠ dst → (getN h d).parent ≠ some d → Move h d dst = .ok h' →
        (∀ i, i ≠ d → i ≠ dst → (getN h d).parent ≠ some i → getN h' i = getN h i)
        ∧ (getN h' d).name = (getN h d).name
        ∧ (getN h' d).children = (getN h d).children
        ∧ (getN h' d).parent = some dst) := by
  constructor
  · rintro (h1 | h2)
    · exact ⟨_, by rw [Move, if_pos h1]⟩
    · by_cases h1 : (getN h d).name = ""
      · exact ⟨_, by rw [Move, if_pos h1]⟩
      · exact ⟨_, by rw [Move, if_neg h1, if_pos h2]⟩
  · intro h' hne hpd hok
    by_cases hnm : (getN h d).name = ""
    · rw [Move, if_pos hnm] at hok
      simp at hok
    have hd : d < h.length := by
      by_contra hlt
      exact hnm (by rw [getN_oob (Nat.le_of_not_lt hlt)]; rfl)
    by_cases hcolb : (mapLookup (childrenL h dst) (getN h d).name).isSome
    · rw [Move, if_neg hnm, if_pos hcolb] at hok
      simp at hok
    have hcol : mapLookup (childrenL h dst) (getN h d).name = none :=
      Option.not_isSome_iff_eq_none.mp hcolb
    cases hp : (getN h d).parent with
    | none =>
      have hu := unlink_eq_root h d hp
      cases hch : (getN h dst).children with
      | none =>
        rw [move_eq_fault_nil h d dst false h hnm hcol hu hch] at hok
        simp at hok
      | some m =>
        rw [move_eq_ok h d dst false h m hnm hcol hu hch] at hok
        simp only [MoveRes.ok.injEq] at hok
        subst hok
        refine ⟨?_, ?_, ?_, ?_⟩
        · intro i hid hidst _
          rw [getN_setParent_ne _ _ (Ne.symm hid), getN_setChildren_ne _ _ (Ne.symm hidst)]
        · rw [getN_setParent_name, getN_setChildren_name]
        · rw [getN_setParent_children, getN_setChildren_ne _ _ (Ne.symm hne)]
        · rw [setParent, getN_set_self _ (by rw [length_setChildren]; exact hd)]
    | some p =>
      have hpdne : p ≠ d := fun hh => hpd (by rw [hp, hh])
      cases hl : mapLookup (childrenL h p) (getN h d).name with
      | none =>
        have hu := unlink_eq_missing h d p hp hl
        cases hch : (getN (setParent h d none) dst).children with
        | none =>
          rw [move_eq_fault_nil h d dst false _ hnm hcol hu hch] at hok
          simp at hok
        | some m =>
          rw [move_eq_ok h d dst false _ m hnm hcol hu hch] at hok
          simp only [MoveRes.ok.injEq] at hok
          subst hok
          refine ⟨?_, ?_, ?_, ?_⟩
          · intro i hid hidst _
            rw [getN_setParent_ne _ _ (Ne.symm hid), getN_setChildren_ne _ _ (Ne.symm hidst),
              getN_setParent_ne _ _ (Ne.symm hid)]
          · rw [getN_setParent_name, getN_setChildren_name, getN_setParent_name]
          · rw [getN_setParent_children, getN_setChildren_ne _ _ (Ne.symm hne),
              getN_setParent_children]
          · rw [setParent, getN_set_self _
              (by rw [length_setChildren, length_setParent]; exact hd)]
      | some c =>
        by_cases hc : c = d
        · rw [hc] at hl
          have hu := unlink_eq_hit h d p hp hl
          cases hch : (getN (setChildren (setParent h d none) p
              (mapErase (childrenL (setParent h d none) p)
                (getN h d).name)) dst).children with
          | none =>
            rw [move_eq_fault_nil h d dst true _ hnm hcol hu hch] at hok
            simp at hok
          | some m =>
            rw [move_eq_ok h d dst true _ m hnm hcol hu hch] at hok
            simp only [MoveRes.ok.injEq] at hok
            subst hok
            refine ⟨?_, ?_, ?_, ?_⟩
            · intro i hid hidst hpi
              have hip : i ≠ p := fun hh => hpi (by rw [hh])
              rw [getN_setParent_ne _ _ (Ne.symm hid), getN_setChildren_ne _ _ (Ne.symm hidst),
                getN_setChildren_ne _ _ (Ne.symm hip), getN_setParent_ne _ _ (Ne.symm hid)]
            · rw [getN_setParent_name, getN_setChildren_name, getN_setChildren_name,
                getN_setParent_name]
            · rw [getN_setParent_children, getN_setChildren_ne _ _ (Ne.symm hne),
                getN_setChildren_ne _ _ hpdne, getN_setParent_children]
            · rw [setParent, getN_set_self _
                (by rw [length_setChildren, length_setChildren, length_setParent]; exact hd)]
        · have hu := unlink_eq_mismatch h d p c hp hl hc
          rw [move_eq_fault_unlink h d dst _ hnm hcol hu] at hok
          simp at hok

/-- C9 witness: `c9_move_frame` evaluated on concrete heaps: the
failure case on an unnamed root (heap returned unchanged) and the
success case `Move heapM 1 2`, whose frame conditions are checked on
node 3 and on the receiver node 1. -/
theorem c9_move_witness :
    (∃ e, Move [(⟨"", none, none⟩ : Node)] 0 0 = .err e [(⟨"", none, none⟩ : Node)])
    ∧ getN heapM2 3 = getN heapM 3
    ∧ (getN heapM2 1).name = (getN heapM 1).name
    ∧ (getN heapM2 1).children = (getN heapM 1).children
    ∧ (getN heapM2 1).parent = some 2 := by
  have hb := (c9_move_frame heapM 1 2).2 heapM2 (by decide) (by decide) (by rfl)
  exact ⟨(c9_move_frame [(⟨"", none, none⟩ : Node)] 0 0).1 (Or.inl (by decide)),
    hb.1 3 (by decide) (by decide) (by decide), hb.2.1, hb.2.2.1, hb.2.2.2⟩

/-- C10: moving a named node into a destination whose children map was
never allocated does not return normally: `Move` first unlinks the
receiver (clearing its parent pointer) and then faults on the nil-map
assignment, because unlike `Add` and `Make` it has no lazy map
allocation — on the same heap `Add` into that destination succeeds for
any valid name. -/
theorem c10_move_nil_children_fault (h : Heap) (d dst : Nat)
    (hname : (getN h d).name ≠ "")
    (hdst : (getN h dst).children = none)
    (hpar : ∀ p, (getN h d).parent = some p →
      ∀ c, mapLookup (childrenL h p) (getN h d).name = some c → c = d) :
    (∃ h1, Move h d dst = .fault h1 ∧ (getN h1 d).parent = none)
    ∧ (∀ nm, nm ≠ "" → nm ≠ "/" → ∃ c h2, Add h dst nm = .ok (c, h2)) := by
  have hd : d < h.length := by
    by_contra hlt
    exact hname (by rw [getN_oob (Nat.le_of_not_lt hlt)]; rfl)
  have hcl : childrenL h dst = [] := by rw [childrenL, hdst]; rfl
  have hcol : mapLookup (childrenL h dst) (getN h d).name = none := by
    rw [hcl]; rfl
  constructor
  · cases hp : (getN h d).parent with
    | none =>
      exact ⟨h, move_eq_fault_nil h d dst false h hname hcol (unlink_eq_root h d hp) hdst, hp⟩
    | some p =>
      cases hl : mapLookup (childrenL h p) (getN h d).name with
      | none =>
        have hu := unlink_eq_missing h d p hp hl
        have hch : (getN (setParent h d none) dst).children = none := by
          rw [getN_setParent_children, hdst]
        refine ⟨_, move_eq_fault_nil h d dst false _ hname hcol hu hch, ?_⟩
        rw [setParent, getN_set_self _ hd]
      | some c =>
        rw [hpar p hp c hl] at hl
        have hu := unlink_eq_hit h d p hp hl
        have hpdst : dst ≠ p := by
          intro hh
          rw [← hh, hcl] at hl
          simp [mapLookup] at hl
        have hch : (getN (setChildren (setParent h d none) p
            (mapErase (childrenL (setParent h d none) p)
              (getN h d).name)) dst).children = none := by
          rw [getN_setChildren_ne _ _ (Ne.symm hpdst), getN_setParent_children, hdst]
        refine ⟨_, move_eq_fault_nil h d dst true _ hname hcol hu hch, ?_⟩
        rw [getN_setChildren_parent, setParent, getN_set_self _ hd]
  · intro nm h1 h2
    rw [Add, if_neg (by simp [h1, h2]), if_neg (by rw [hcl]; simp [mapLookup])]
    exact ⟨_, _, rfl⟩

/-- C10 witness: `c10_move_nil_children_fault` at a concrete heap — a
root with one child "a" and a second root "z" never given children:
moving "a" into "z" faults with "a" already unlinked, while `Add` on
"z" succeeds. -/
theorem c10_move_fault_witness :
    (∃ h1, Move [⟨"r", none, some [("a", 1)]⟩, ⟨"a", some 0, none⟩,
        (⟨"z", none, none⟩ : Node)] 1 2 = .fault h1 ∧ (getN h1 1).parent = none)
    ∧ (∃ c h2, Add [⟨"r", none, some [("a", 1)]⟩, ⟨"a", some 0, none⟩,
        (⟨"z", none, none⟩ : Node)] 2 "w" = .ok (c, h2)) := by
  have := c10_move_nil_children_fault
    [⟨"r", none, some [("a", 1)]⟩, ⟨"a", some 0, none⟩, (⟨"z", none, none⟩ : Node)]
    1 2 (by decide) (by decide) (by decide)
  exact ⟨this.1, this.2 "w" (by decide) (by decide)⟩

/-! ### Make: validation and creation lemmas (for C2) -/

theorem mkCheck_eq_none_iff (h : Heap) (d : Nat) (names : List String) :
    mkCheck h d names = none ↔
      ∀ n ∈ names, n ≠ "" ∧ n ≠ "/" ∧ mapLookup (childrenL h d) n = none := by
  induction names with
  | nil => simp [mkCheck]
  | cons n ns ih =>
    by_cases h1 : n = "" ∨ n = "/"
    · simp only [mkCheck, h1, if_true]
      constructor
      · intro hh; exact absurd hh (by simp)
      · intro hh
        rcases h1 with h1 | h1 <;>
          exact absurd h1 (by have := hh n (by simp); tauto)
    · by_cases h2 : (mapLookup (childrenL h d) n).isSome
      · simp only [mkCheck, h1, if_false, h2, if_true]
        constructor
        · intro hh; exact absurd hh (by simp)
        · intro hh
          have := (hh n (by simp)).2.2
          rw [this] at h2
          simp at h2
      · have hstep : mkCheck h d (n :: ns) = mkCheck h d ns := by
          rw [mkCheck, if_neg h1, if_neg h2]
        rw [hstep, ih]
        constructor
        · intro hh x hx
          rcases List.mem_cons.mp hx with rfl | hx'
          · exact ⟨fun he => h1 (Or.inl he), fun he => h1 (Or.inr he),
              Option.not_isSome_iff_eq_none.mp h2⟩
          · exact hh x hx'
        · intro hh x hx
          exact hh x (List.mem_cons_of_mem _ hx)

theorem length_addFresh (h : Heap) (d : Nat) (n : String) :
    (addFresh h d n).length = h.length + 1 := by
  simp [addFresh, length_setChildren]

theorem getN_addFresh_ne (h : Heap) (d : Nat) (n : String) {i : Nat}
    (hi : i < h.length) (hid : i ≠ d) : getN (addFresh h d n) i = getN h i := by
  rw [addFresh, getN_setChildren_ne _ _ (Ne.symm hid), getN_append_lt _ hi]

theorem getN_addFresh_name (h : Heap) (d : Nat) (n : String) (hd : d < h.length) :
    (getN (addFresh h d n) d).name = (getN h d).name := by
  rw [addFresh, getN_setChildren_name, getN_append_lt _ hd]

theorem getN_addFresh_parent (h : Heap) (d : Nat) (n : String) (hd : d < h.length) :
    (getN (addFresh h d n) d).parent = (getN h d).parent := by
  rw [addFresh, getN_setChildren_parent, getN_append_lt _ hd]

theorem childrenL_addFresh (h : Heap) (d : Nat) (n : String) (hd : d < h.length) :
    childrenL (addFresh h d n) d = mapInsert (childrenL h d) n h.length := by
  rw [addFresh, childrenL, setChildren,
    getN_set_self _ (by simp only [List.length_append, List.length_cons,
      List.length_nil]; omega)]
  simp only [Option.getD_some]
  rw [childrenL, getN_append_lt _ hd, childrenL]

theorem getN_addFresh_fresh (h : Heap) (d : Nat) (n : String) (hd : d < h.length) :
    getN (addFresh h d n) h.length = ⟨n, some d, none⟩ := by
  rw [addFresh, getN_setChildren_ne _ _ (Nat.ne_of_lt hd), getN_append_self]

theorem makeGo_length_ge (d : Nat) :
    ∀ (ns : List String) (h : Heap), h.length ≤ (makeGo h d ns).length := by
  intro ns
  induction ns with
  | nil => intro h; exact Nat.le_refl _
  | cons n ns ih =>
    intro h
    calc h.length ≤ (addFresh h d n).length := by rw [length_addFresh]; omega
    _ ≤ _ := ih (addFresh h d n)

theorem makeGo_frame (d : Nat) :
    ∀ (ns : List String) (h : Heap) (i : Nat), i < h.length → i ≠ d →
      getN (makeGo h d ns) i = getN h i := by
  intro ns
  induction ns with
  | nil => intro h i _ _; rfl
  | cons n ns ih =>
    intro h i hi hid
    rw [makeGo, ih (addFresh h d n) i (by rw [length_addFresh]; omega) hid,
      getN_addFresh_ne h d n hi hid]

theorem makeGo_name (d : Nat) :
    ∀ (ns : List String) (h : Heap), d < h.length →
      (getN (makeGo h d ns) d).name = (getN h d).name := by
  intro ns
  induction ns with
  | nil => intro h _; rfl
  | cons n ns ih =>
    intro h hd
    rw [makeGo, ih (addFresh h d n) (by rw [length_addFresh]; omega),
      getN_addFresh_name h d n hd]

theorem makeGo_parent (d : Nat) :
    ∀ (ns : List String) (h : Heap), d < h.length →
      (getN (makeGo h d ns) d).parent = (getN h d).parent := by
  intro ns
  induction ns with
  | nil => intro h _; rfl
  | cons n ns ih =>
    intro h hd
    rw [makeGo, ih (addFresh h d n) (by rw [length_addFresh]; omega),
      getN_addFresh_parent h d n hd]

theorem makeGo_lookup_notmem (d : Nat) :
    ∀ (ns : List String) (h : Heap) (k : String), d < h.length → k ∉ ns →
      mapLookup (childrenL (makeGo h d ns) d) k = mapLookup (childrenL h d) k := by
  intro ns
  induction ns with
  | nil => intro h k _ _; rfl
  | cons n ns ih =>
    intro h k hd hk
    rw [makeGo, ih (addFresh h d n) k (by rw [length_addFresh]; omega)
        (fun hm => hk (List.mem_cons_of_mem _ hm)),
      childrenL_addFresh h d n hd,
      mapLookup_insert_ne _ _ (fun hm => hk (by rw [hm]; exact List.mem_cons_self _ _))]

theorem makeGo_mem (d : Nat) :
    ∀ (ns : List String) (h : Heap), d < h.length →
      ∀ n ∈ ns, ∃ c, mapLookup (childrenL (makeGo h d ns) d) n = some c
        ∧ getN (makeGo h d ns) c = ⟨n, some d, none⟩ := by
  intro ns
  induction ns with
  | nil => intro h _ n hn; simp at hn
  | cons n' ns ih =>
    intro h hd n hn
    by_cases hns : n ∈ ns
    · exact ih (addFresh h d n') (by rw [length_addFresh]; omega) n hns
    · have hnn : n = n' := by
        rcases List.mem_cons.mp hn with h1 | h1
        · exact h1
        · exact absurd h1 hns
      subst hnn
      refine ⟨h.length, ?_, ?_⟩
      · rw [makeGo, makeGo_lookup_notmem d ns (addFresh h d n) n
            (by rw [length_addFresh]; omega) hns,
          childrenL_addFresh h d n hd, mapLookup_insert_self]
      · rw [makeGo, makeGo_frame d ns (addFresh h d n) h.length
            (by rw [length_addFresh]; omega) (Nat.ne_of_gt hd),
          getN_addFresh_fresh h d n hd]

theorem length_ensureChildren (h : Heap) (d : Nat) :
    (ensureChildren h d).length = h.length := by
  rw [ensureChildren]
  cases (getN h d).children with
  | none => rw [length_setChildren]
  | some m => rfl

theorem getN_ensureChildren_ne (h : Heap) {d i : Nat} (hid : i ≠ d) :
    getN (ensureChildren h d) i = getN h i := by
  rw [ensureChildren]
  cases (getN h d).children with
  | none => rw [getN_setChildren_ne _ _ (Ne.symm hid)]
  | some m => rfl

theorem getN_ensureChildren_name (h : Heap) (d : Nat) :
    (getN (ensureChildren h d) d).name = (getN h d).name := by
  rw [ensureChildren]
  cases (getN h d).children with
  | none => rw [getN_setChildren_name]
  | some m => rfl

theorem getN_ensureChildren_parent (h : Heap) (d : Nat) :
    (getN (ensureChildren h d) d).parent = (getN h d).parent := by
  rw [ensureChildren]
  cases (getN h d).children with
  | none => rw [getN_setChildren_parent]
  | some m => rfl

theorem childrenL_ensureChildren (h : Heap) (d : Nat) :
    childrenL (ensureChildren h d) d = childrenL h d := by
  rw [ensureChildren]
  cases hc : (getN h d).children with
  | none =>
    by_cases hd : d < h.length
    · rw [childrenL, setChildren, getN_set_self _ hd, childrenL, hc]
      rfl
    · rw [setChildren, setN_oob _ (Nat.le_of_not_lt hd)]
  | some m => rfl

/-- C2 (amended): `Make` is all-or-nothing with respect to its checked
conditions — it errors, creating nothing, exactly when some requested
name is empty, is "/", or collides with a pre-existing child — but
duplicates within the requested list are not detected: on success
every requested name (distinct names once each, a duplicate
overwriting its predecessor) is bound in the receiver's map to a fresh
child whose parent is the receiver, existing bindings of other names
are untouched, and no other pre-existing node changes. -/
theorem c2_make_all_or_nothing (h : Heap) (d : Nat) (names : List String)
    (hd : d < h.length) :
    ((∃ n ∈ names, n = "" ∨ n = "/" ∨ (mapLookup (childrenL h d) n).isSome)
      ↔ ∃ e, Make h d names = .error e)
    ∧ (∀ h', Make h d names = .ok h' →
        (∀ n ∈ names, ∃ c, mapLookup (childrenL h' d) n = some c
          ∧ getN h' c = ⟨n, some d, none⟩)
        ∧ (∀ k, k ∉ names → mapLookup (childrenL h' d) k = mapLookup (childrenL h d) k)
        ∧ (∀ i, i < h.length → i ≠ d → getN h' i = getN h i)
        ∧ (getN h' d).name = (getN h d).name
        ∧ (getN h' d).parent = (getN h d).parent) := by
  constructor
  · constructor
    · rintro ⟨n, hm, hbad⟩
      cases hmk : mkCheck h d names with
      | some e => exact ⟨e, by rw [Make, hmk]⟩
      | none =>
        have hgood := (mkCheck_eq_none_iff h d names).mp hmk n hm
        rcases hbad with hb | hb | hb
        · exact absurd hb hgood.1
        · exact absurd hb hgood.2.1
        · rw [hgood.2.2] at hb; simp at hb
    · rintro ⟨e, he⟩
      cases hmk : mkCheck h d names with
      | none => rw [Make, hmk] at he; simp at he
      | some e' =>
        by_contra hno
        push_neg at hno
        have : mkCheck h d names = none := by
          rw [mkCheck_eq_none_iff]
          intro n hn
          have := hno n hn
          exact ⟨this.1, this.2.1,
            Option.not_isSome_iff_eq_none.mp this.2.2⟩
        rw [this] at hmk
        exact Option.noConfusion hmk
  · intro h' hok
    cases hmk : mkCheck h d names with
    | some e => rw [Make, hmk] at hok; simp at hok
    | none =>
      rw [Make, hmk] at hok
      simp only [Except.ok.injEq] at hok
      subst hok
      have hde : d < (ensureChildren h d).length := by
        rw [length_ensureChildren]; exact hd
      refine ⟨?_, ?_, ?_, ?_, ?_⟩
      · intro n hn
        exact makeGo_mem d names (ensureChildren h d) hde n hn
      · intro k hk
        rw [makeGo_lookup_notmem d names (ensureChildren h d) k hde hk,
          childrenL_ensureChildren]
      · intro i hi hid
        rw [makeGo_frame d names (ensureChildren h d) i
            (by rw [length_ensureChildren]; exact hi) hid,
          getN_ensureChildren_ne _ hid]
      · rw [makeGo_name d names (ensureChildren h d) hde, getN_ensureChildren_name]
      · rw [makeGo_parent d names (ensureChildren h d) hde, getN_ensureChildren_parent]

/-- C2 witness: `c2_make_all_or_nothing` on a one-node heap: a batch
containing an empty name errors, and a valid batch binds each name to
a fresh child of the root. -/
theorem c2_make_witness :
    (∃ e, Make [(⟨"r", none, none⟩ : Node)] 0 ["X", ""] = .error e)
    ∧ (∃ h', Make [(⟨"r", none, none⟩ : Node)] 0 ["X", "Y"] = .ok h'
        ∧ ∃ c, mapLookup (childrenL h' 0) "X" = some c
          ∧ getN h' c = ⟨"X", some 0, none⟩) := by
  constructor
  · exact (c2_make_all_or_nothing [(⟨"r", none, none⟩ : Node)] 0 ["X", ""]
      (by decide)).1.mp ⟨"", by simp, Or.inl rfl⟩
  · refine ⟨_, rfl, ?_⟩
    exact ((c2_make_all_or_nothing [(⟨"r", none, none⟩ : Node)] 0 ["X", "Y"]
      (by decide)).2 _ rfl).1 "X" (by simp)

/-! ### PathDelim over Add chains (for C7) -/

/-- Parent pointers strictly decrease towards the root; true of every
heap built by `New`/`Add` chains, and what makes the ancestor walk
terminate. -/
def WfParents (h : Heap) : Prop := ∀ i p, (getN h i).parent = some p → p < i

theorem upNames_none (h : Heap) : ∀ f, upNames h f none = [] := by
  intro f; cases f <;> rfl

theorem upNames_succ (h : Heap) (f : Nat) (i : Nat) :
    upNames h (f + 1) (some i) = (getN h i).name :: upNames h f (getN h i).parent := rfl

theorem upNames_any_fuel (h : Heap) (hw : WfParents h) :
    ∀ f g i, i < f → i < g → upNames h f (some i) = upNames h g (some i) := by
  intro f
  induction f with
  | zero => intro g i hif _; omega
  | succ f ih =>
    intro g i hif hig
    cases g with
    | zero => omega
    | succ g' =>
      rw [upNames_succ, upNames_succ]
      cases hp : (getN h i).parent with
      | none => rw [upNames_none, upNames_none]
      | some p =>
        have hpi := hw i p hp
        exact congrArg _ (ih g' p (by omega) (by omega))

theorem upNames_congr (h h' : Heap) (n : Nat) (hw : WfParents h)
    (hag : ∀ j, j < n →
      (getN h j).name = (getN h' j).name ∧ (getN h j).parent = (getN h' j).parent) :
    ∀ f i, i < n → upNames h f (some i) = upNames h' f (some i) := by
  intro f
  induction f with
  | zero => intro i _; rfl
  | succ f ih =>
    intro i hi
    rw [upNames_succ, upNames_succ, (hag i hi).1, ← (hag i hi).2]
    cases hp : (getN h i).parent with
    | none => rw [upNames_none, upNames_none]
    | some p =>
      have hpi := hw i p hp
      exact congrArg _ (ih p (by omega))

theorem upNames_can (h : Heap) (hw : WfParents h) (i : Nat) (hi : i < h.length) :
    upNames h (i + 1) (some i)
      = (getN h i).name :: upNames h h.length ((getN h i).parent) := by
  rw [upNames_succ]
  cases hp : (getN h i).parent with
  | none => rw [upNames_none, upNames_none]
  | some p =>
    have hpi := hw i p hp
    exact congrArg _ (upNames_any_fuel h hw i h.length p (by omega) (by omega))

theorem add_eq_ok (h : Heap) (k : Nat) (n : String) (h1 : n ≠ "") (h2 : n ≠ "/")
    (h3 : mapLookup (childrenL h k) n = none) :
    Add h k n = .ok (h.length, setChildren (h ++ [⟨n, some k, none⟩]) k
      (mapInsert (childrenL (h ++ [⟨n, some k, none⟩]) k) n h.length)) := by
  rw [Add, if_neg (by simp [h1, h2]), if_neg (by rw [h3]; simp)]

theorem addChain_spec :
    ∀ (names : List String) (h : Heap) (k : Nat),
      WfParents h → k < h.length → (getN h k).children = none →
      (∀ n ∈ names, n ≠ "" ∧ n ≠ "/") →
      ∃ H last, addChain h k names = some (H, last)
        ∧ WfParents H ∧ last < H.length ∧ (getN H last).children = none
        ∧ (getN H last).name :: upNames H H.length ((getN H last).parent)
          = names.reverse
            ++ ((getN h k).name :: upNames h h.length ((getN h k).parent)) := by
  intro names
  induction names with
  | nil =>
    intro h k hw hk hch _
    exact ⟨h, k, rfl, hw, hk, hch, by simp⟩
  | cons n ns ih =>
    intro h k hw hk hch hv
    have hn := hv n (List.mem_cons_self _ _)
    have hcl : childrenL h k = [] := by rw [childrenL, hch]; rfl
    have hadd := add_eq_ok h k n hn.1 hn.2 (by rw [hcl]; rfl)
    have hfresh : getN (setChildren (h ++ [⟨n, some k, none⟩]) k
        (mapInsert (childrenL (h ++ [⟨n, some k, none⟩]) k) n h.length)) h.length
        = ⟨n, some k, none⟩ := by
      rw [getN_setChildren_ne _ _ (Nat.ne_of_lt hk), getN_append_self]
    have hlen1 : (setChildren (h ++ [⟨n, some k, none⟩]) k
        (mapInsert (childrenL (h ++ [⟨n, some k, none⟩]) k) n h.length)).length
        = h.length + 1 := by
      rw [length_setChildren]; simp
    have hag : ∀ j, j < h.length →
        (getN (setChildren (h ++ [⟨n, some k, none⟩]) k
          (mapInsert (childrenL (h ++ [⟨n, some k, none⟩]) k) n h.length)) j).name
          = (getN h j).name
        ∧ (getN (setChildren (h ++ [⟨n, some k, none⟩]) k
          (mapInsert (childrenL (h ++ [⟨n, some k, none⟩]) k) n h.length)) j).parent
          = (getN h j).parent := by
      intro j hj
      constructor
      · rw [getN_setChildren_name, getN_append_lt _ hj]
      · rw [getN_setChildren_parent, getN_append_lt _ hj]
    have hw1 : WfParents (setChildren (h ++ [⟨n, some k, none⟩]) k
        (mapInsert (childrenL (h ++ [⟨n, some k, none⟩]) k) n h.length)) := by
      intro i p hp
      by_cases hi : i < h.length
      · rw [(hag i hi).2] at hp
        exact hw i p hp
      · by_cases hie : i = h.length
        · subst hie
          rw [hfresh] at hp
          have : k = p := Option.some.injEq _ _ ▸ hp
          omega
        · rw [getN_oob (by rw [hlen1]; omega)] at hp
          exact Option.noConfusion hp
    obtain ⟨H, last, hchain, hwH, hlast, hchH, hanc⟩ :=
      ih (setChildren (h ++ [⟨n, some k, none⟩]) k
          (mapInsert (childrenL (h ++ [⟨n, some k, none⟩]) k) n h.length))
        h.length hw1 (by omega) (by rw [hfresh]) (fun x hx => hv x (List.mem_cons_of_mem _ hx))
    refine ⟨H, last, ?_, hwH, hlast, hchH, ?_⟩
    · rw [addChain, hadd]
      exact hchain
    · rw [hanc]
      have hstep : (getN (setChildren (h ++ [⟨n, some k, none⟩]) k
            (mapInsert (childrenL (h ++ [⟨n, some k, none⟩]) k) n h.length)) h.length).name
          :: upNames (setChildren (h ++ [⟨n, some k, none⟩]) k
            (mapInsert (childrenL (h ++ [⟨n, some k, none⟩]) k) n h.length))
            (setChildren (h ++ [⟨n, some k, none⟩]) k
              (mapInsert (childrenL (h ++ [⟨n, some k, none⟩]) k) n h.length)).length
            ((getN (setChildren (h ++ [⟨n, some k, none⟩]) k
              (mapInsert (childrenL (h ++ [⟨n, some k, none⟩]) k) n h.length)) h.length).parent)
          = n :: ((getN h k).name :: upNames h h.length ((getN h k).parent)) := by
        rw [hfresh]
        show n :: upNames _ _ (some k) = _
        rw [hlen1,
          upNames_any_fuel _ hw1 (h.length + 1) (k + 1) k (by omega) (by omega),
          upNames_congr _ h h.length hw1 hag (k + 1) k hk,
          upNames_can h hw k hk]
      rw [hstep]
      simp [List.append_assoc]

/-- C7: for every node reached from a fresh root by a chain of valid
`Add` calls, `PathDelim` returns the delimiter-joined names from the
root down, with the root segment blanked when the root's name equals
the delimiter; `Path` is `PathDelim` at "/". -/
theorem c7_path_chain (rootName delim : String) (names : List String)
    (hv : ∀ n ∈ names, n ≠ "" ∧ n ≠ "/") :
    ∃ H k, addChain (New rootName).1 (New rootName).2 names = some (H, k)
      ∧ PathDelim H k delim
        = String.intercalate delim ((if rootName = delim then "" else rootName) :: names)
      ∧ Path H k = PathDelim H k "/" := by
  have hwb : WfParents [(⟨rootName, none, none⟩ : Node)] := by
    intro i p hp
    match i with
    | 0 => exact Option.noConfusion hp
    | Nat.succ m => exact Option.noConfusion hp
  obtain ⟨H, k, hchain, hwH, hk, hch, hanc⟩ :=
    addChain_spec names [⟨rootName, none, none⟩] 0 hwb (by simp) rfl hv
  have hanc' : (getN H k).name :: upNames H H.length ((getN H k).parent)
      = names.reverse ++ [rootName] := by
    rw [hanc]; rfl
  refine ⟨H, k, hchain, ?_, rfl⟩
  simp only [PathDelim]
  rw [hanc']
  simp [List.reverse_append]

/-- C7 witness: a root named "/" with one child "a" added: the path is
"/a", not "//a". -/
theorem c7_path_witness :
    ∃ H k, addChain (New "/").1 (New "/").2 ["a"] = some (H, k)
      ∧ PathDelim H k "/" = "/a" ∧ Path H k = "/a" := by
  obtain ⟨H, k, h1, h2, h3⟩ := c7_path_chain "/" "/" ["a"] (by decide)
  refine ⟨H, k, h1, ?_, ?_⟩
  · rw [h2]; rfl
  · rw [h3, h2]; rfl

/-! ### Inductive tree model for the read-only algorithms

`Tree`, `Find` and the sort utilities only read the structure, and the
trees they are applied to satisfy the package invariants, so we embed
the tree they see through the pointers as an inductive tree: a name
plus the list of children (the Go map's entries, keyed by each child's
own name as I1 guarantees).  Lean 4.14 cannot do structural recursion
through a nested `List`, so the children sit in an isomorphic mutual
type `DList`, converted to `List DTree` by `toList` for every
list-level operation. -/

mutual
inductive DTree where
  | mk (name : String) (children : DList)
deriving Repr
inductive DList where
  | nil
  | cons (head : DTree) (tail : DList)
deriving Repr
end

mutual
def sizeT : DTree → Nat
  | .mk _ cs => 1 + sizeDL cs
def sizeDL : DList → Nat
  | .nil => 0
  | .cons h t => sizeT h + sizeDL t
end

def ofList : List DTree → DList
  | [] => .nil
  | t :: ts => .cons t (ofList ts)

def toList : DList → List DTree
  | .nil => []
  | .cons h t => h :: toList t

def DTree.name : DTree → String
  | .mk n _ => n

/-- The children collection of a node, as the list of the map's
values. -/
def DTree.children (t : DTree) : List DTree :=
  match t with
  | .mk _ cs => toList cs

/-- Go `(*Dirent).String()`: the name, or "/" for an unnamed node. -/
def dString (t : DTree) : String := if t.name = "" then "/" else t.name

/-- Comparison key of a node: the character sequence of its display
string (Go compares strings byte-wise; on the code's ASCII names the
character order coincides). -/
def keyD (t : DTree) : List Char := (dString t).data

/-- Go string `<`: lexicographic comparison of the character
sequences. -/
def strLt : List Char → List Char → Bool
  | [], [] => false
  | [], _ :: _ => true
  | _ :: _, [] => false
  | a :: as, b :: bs => if a = b then strLt as bs else decide (a < b)

/-- The ordering produced by Go `sort.Sort(nodeSlice(s))` with
`Less(i,j) = s[i].String() < s[j].String()`: `a` may precede `b` when
`b.String() < a.String()` fails. -/
def ascLe (a b : DTree) : Prop := strLt (keyD b) (keyD a) = false

/-- The ordering produced under `sort.Reverse`: the flipped
comparator. -/
def descLe (a b : DTree) : Prop := strLt (keyD a) (keyD b) = false

instance : DecidableRel ascLe := fun _ _ => instDecidableEqBool _ _

instance : DecidableRel descLe := fun _ _ => instDecidableEqBool _ _

/-- `Sort` of dirsort.go: Go's unstable comparison sort guarantees a
permutation sorted by the comparator; on the pairwise-distinct keys
the claims concern that output is unique, and insertion sort computes
it. -/
def dirSort (l : List DTree) : List DTree := List.insertionSort ascLe l

/-- `SortReverse` of dirsort.go: same sort under the reversed
comparator. -/
def dirSortReverse (l : List DTree) : List DTree := List.insertionSort descLe l

/-- Go `(*Dirent).Children()`. -/
def Children (t : DTree) : List DTree := t.children

def linkPfx : String := "|-- "

def contPfx : String := "|   "

def endlPfx : String := "`-- "

def blnkPfx : String := "    "

/-- The loop of Go `(*Dirent).Tree()`.  Go keeps the stack in a slice
with the top at the end; here the list head is the top, so the
reverse-sorted children Go appends become an ascending-order block in
front, followed by the `nil` sentinel that restores the prefix stack
`ps`.  The connector variable `pfx` is threaded exactly as in the
source: set to the end connector on a last sibling, reset to the link
connector only when a node is expanded, and otherwise carried over.
Each iteration strictly decreases `2·(total size of stacked trees) +
(number of sentinels)`, so the fuel `2 · sizeT d` of `Tree` never runs
out. -/
def treeGo : Nat → List String → List (Option DTree) → List String → String → String →
    List String
  | 0, ss, _, _, _, _ => ss
  | _ + 1, ss, [], _, _, _ => ss
  | f + 1, ss, none :: rest, ps, _, pfx =>
      treeGo f ss rest ps.dropLast (String.join ps.dropLast) pfx
  | f + 1, ss, some cur :: rest, ps, ppfx, pfx =>
      let isLast : Bool :=
        match rest with
        | [] => true
        | none :: _ => true
        | some _ :: _ => false
      let pfx1 := if isLast then endlPfx else pfx
      let ss' := ss ++ [ppfx ++ pfx1 ++ cur.name]
      match cur.children with
      | [] => treeGo f ss' rest ps ppfx pfx1
      | _ :: _ =>
        let ps' := ps ++ [if pfx1 = endlPfx then blnkPfx else contPfx]
        treeGo f ss' (((dirSortReverse (Children cur)).reverse.map some) ++ none :: rest)
          ps' (String.join ps') linkPfx

/-- Go `(*Dirent).Tree()`. -/
def Tree (d : DTree) : String :=
  String.intercalate "\n"
    (treeGo (2 * sizeT d) [d.name] ((dirSortReverse (Children d)).reverse.map some)
      [] "" linkPfx)

/-- A childless node. -/
def leaf (n : String) : DTree := .mk n (ofList [])

/-- The worked example of the spec: root "." with children A (with Ax
and Ay, Ay with Ay-1 and Ay-2) and B (with Bx and By). -/
def exTree : DTree :=
  .mk "." (ofList [
    .mk "A" (ofList [leaf "Ax", .mk "Ay" (ofList [leaf "Ay-1", leaf "Ay-2"])]),
    .mk "B" (ofList [leaf "Bx", leaf "By"])])

/-- A shape outside the test suite: root r with children A (itself
with one child A1), B and C. -/
def bugTree : DTree :=
  .mk "r" (ofList [.mk "A" (ofList [leaf "A1"]), leaf "B", leaf "C"])

/-- C5: the worked example renders byte-exactly as the spec shows,
with siblings ascending and the root line bare; but the claimed
general connector rule fails: on `bugTree` the connector variable is
carried over from the last leaf of A's subtree, so B is rendered with
the end connector although its sibling C follows it in ascending
order. -/
theorem c5_tree_render_eval :
    Tree exTree
      = ".\n|-- A\n|   |-- Ax\n|   `-- Ay\n|       |-- Ay-1\n|       `-- Ay-2\n`-- B\n    |-- Bx\n    `-- By"
    ∧ Tree bugTree = "r\n|-- A\n|   `-- A1\n`-- B\n`-- C"
    ∧ ((dirSortReverse (Children bugTree)).reverse).map DTree.name = ["A", "B", "C"] := by
  refine ⟨by rfl, by rfl, by rfl⟩

/-! ### Find: breadth-first search (for C6) -/

/-- Total size of a list of trees. -/
def sizeL (l : List DTree) : Nat := (l.map sizeT).sum

theorem sizeDL_eq : ∀ cs : DList, sizeDL cs = sizeL (toList cs)
  | .nil => rfl
  | .cons h t => by
    show sizeT h + sizeDL t = sizeL (h :: toList t)
    rw [sizeDL_eq t]
    simp [sizeL]

theorem sizeT_children (t : DTree) : sizeT t = 1 + sizeL t.children := by
  cases t with
  | mk n cs =>
    show 1 + sizeDL cs = 1 + sizeL (toList cs)
    rw [sizeDL_eq]

theorem sizeT_pos (t : DTree) : 1 ≤ sizeT t := by
  rw [sizeT_children]; omega

theorem sizeL_append (l1 l2 : List DTree) : sizeL (l1 ++ l2) = sizeL l1 + sizeL l2 := by
  simp [sizeL]

theorem sizeL_cons (x : DTree) (l : List DTree) : sizeL (x :: l) = sizeT x + sizeL l := by
  simp [sizeL]

/-- Go `node.children[name]`: the child keyed by `name` (keys are the
children's own names under invariant I1). -/
def lookupChild (nm : String) (t : DTree) : Option DTree :=
  t.children.find? (fun c => c.name == nm)

/-- The loop of Go `(*Dirent).Find`, with the queue as a list (front =
head): pop a node, return the child keyed `nm` if present, else
enqueue all children.  The fuel is exactly the total queue size, which
each iteration preserves: popping `x` removes `sizeT x` and adds
`sizeT x - 1`. -/
def findAux (nm : String) : Nat → List DTree → Option DTree
  | _, [] => none
  | 0, _ :: _ => none
  | f + 1, x :: rest =>
    match lookupChild nm x with
    | some c => some c
    | none => findAux nm f (rest ++ x.children)

def findQ (nm : String) (q : List DTree) : Option DTree := findAux nm (sizeL q) q

/-- Go `(*Dirent).Find(name)`: breadth-first search seeded with the
receiver. -/
def Find (d : DTree) (nm : String) : Option DTree := findQ nm [d]

/-- The first node in a list holding a child keyed `nm`, and that
child: what one whole BFS level contributes. -/
def firstMatch (nm : String) : List DTree → Option DTree
  | [] => none
  | x :: r =>
    match lookupChild nm x with
    | some c => some c
    | none => firstMatch nm r

/-- The `k`-th BFS level below a seed list: all children, k times. -/
def levelL : List DTree → Nat → List DTree
  | q, 0 => q
  | q, k + 1 => levelL (q.flatMap DTree.children) k

theorem findQ_cons (nm : String) (x : DTree) (rest : List DTree) :
    findQ nm (x :: rest)
      = match lookupChild nm x with
        | some c => some c
        | none => findQ nm (rest ++ x.children) := by
  have hsz : sizeL (x :: rest) = sizeL (rest ++ x.children) + 1 := by
    rw [sizeL_cons, sizeL_append, sizeT_children x]
    omega
  rw [findQ, hsz]
  show (match lookupChild nm x with
    | some c => some c
    | none => findAux nm (sizeL (rest ++ x.children)) (rest ++ x.children)) = _
  cases lookupChild nm x <;> rfl

theorem findQ_append (nm : String) (xs : List DTree) : ∀ ys,
    findQ nm (xs ++ ys)
      = match firstMatch nm xs with
        | some c => some c
        | none => findQ nm (ys ++ xs.flatMap DTree.children) := by
  induction xs with
  | nil => intro ys; simp [firstMatch]
  | cons x xs ih =>
    intro ys
    rw [List.cons_append, findQ_cons]
    show (match lookupChild nm x with
      | some c => some c
      | none => findQ nm ((xs ++ ys) ++ x.children)) = _
    cases hl : lookupChild nm x with
    | some c =>
      show some c = _
      rw [show firstMatch nm (x :: xs) = some c from by rw [firstMatch, hl]]
    | none =>
      rw [show firstMatch nm (x :: xs) = firstMatch nm xs from by rw [firstMatch, hl]]
      rw [show (xs ++ ys) ++ x.children = xs ++ (ys ++ x.children) from by
        rw [List.append_assoc]]
      rw [ih (ys ++ x.children)]
      cases firstMatch nm xs with
      | some c => rfl
      | none =>
        show findQ nm ((ys ++ x.children) ++ xs.flatMap DTree.children) = _
        rw [List.flatMap_cons, List.append_assoc]

theorem findQ_level_step (nm : String) (q : List DTree) :
    findQ nm q
      = match firstMatch nm q with
        | some c => some c
        | none => findQ nm (q.flatMap DTree.children) := by
  have := findQ_append nm q []
  rw [List.append_nil] at this
  rw [this]
  cases firstMatch nm q with
  | some c => rfl
  | none => rw [List.nil_append]

theorem findQ_skip (nm : String) : ∀ (k : Nat) (q : List DTree),
    (∀ j, j < k → firstMatch nm (levelL q j) = none) →
    findQ nm q = findQ nm (levelL q k) := by
  intro k
  induction k with
  | zero => intro q _; rfl
  | succ k ih =>
    intro q hnone
    rw [findQ_level_step]
    have h0 : firstMatch nm q = none := hnone 0 (Nat.succ_pos _)
    rw [h0]
    exact ih (q.flatMap DTree.children) (fun j hj => hnone (j + 1) (by omega))

theorem sizeL_flatMap (q : List DTree) :
    sizeL (q.flatMap DTree.children) + q.length = sizeL q := by
  induction q with
  | nil => rfl
  | cons x rest ih =>
    rw [List.flatMap_cons, sizeL_append, sizeL_cons, List.length_cons,
      sizeT_children x]
    omega

theorem firstMatch_some (nm : String) : ∀ (l : List DTree) (r : DTree),
    firstMatch nm l = some r → ∃ x ∈ l, lookupChild nm x = some r := by
  intro l
  induction l with
  | nil => intro r h; exact Option.noConfusion h
  | cons x t ih =>
    intro r h
    rw [firstMatch] at h
    cases hl : lookupChild nm x with
    | some c =>
      rw [hl] at h
      exact ⟨x, List.mem_cons_self _ _, by rw [hl, ← h]⟩
    | none =>
      rw [hl] at h
      obtain ⟨y, hy, hly⟩ := ih r h
      exact ⟨y, List.mem_cons_of_mem _ hy, hly⟩

theorem lookupChild_some (nm : String) (x r : DTree)
    (h : lookupChild nm x = some r) : r ∈ x.children ∧ r.name = nm := by
  rw [lookupChild] at h
  refine ⟨List.mem_of_find?_eq_some h, ?_⟩
  have h2 : (r.name == nm) = true :=
    @List.find?_some DTree (fun c => c.name == nm) r x.children h
  exact eq_of_beq h2

theorem sizeT_mem_le {x : DTree} {q : List DTree} (hx : x ∈ q) : sizeT x ≤ sizeL q :=
  List.single_le_sum (fun y _ => Nat.zero_le y) _ (List.mem_map_of_mem sizeT hx)

theorem sizeT_child_lt {r x : DTree} (hc : r ∈ x.children) : sizeT r < sizeT x := by
  have := sizeT_mem_le hc
  rw [sizeT_children x]
  omega

theorem findQ_none_aux (nm : String) : ∀ (s : Nat) (q : List DTree), sizeL q ≤ s →
    (∀ k, firstMatch nm (levelL q k) = none) → findQ nm q = none := by
  intro s
  induction s with
  | zero =>
    intro q hs _
    cases q with
    | nil => rfl
    | cons x rest =>
      have := sizeT_pos x
      rw [sizeL_cons] at hs
      omega
  | succ s ih =>
    intro q hs hall
    cases q with
    | nil => rfl
    | cons x rest =>
      rw [findQ_level_step]
      have h0 : firstMatch nm (x :: rest) = none := hall 0
      rw [h0]
      have hlen := sizeL_flatMap (x :: rest)
      exact ih ((x :: rest).flatMap DTree.children)
        (by rw [List.length_cons] at hlen; omega)
        (fun k => hall (k + 1))

theorem findQ_size_aux (nm : String) : ∀ (s : Nat) (q : List DTree) (r : DTree),
    sizeL q ≤ s → findQ nm q = some r → sizeT r < sizeL q := by
  intro s
  induction s with
  | zero =>
    intro q r hs hf
    cases q with
    | nil => exact Option.noConfusion hf
    | cons x rest =>
      have := sizeT_pos x
      rw [sizeL_cons] at hs
      omega
  | succ s ih =>
    intro q r hs hf
    cases q with
    | nil => exact Option.noConfusion hf
    | cons x rest =>
      rw [findQ_level_step] at hf
      cases hm : firstMatch nm (x :: rest) with
      | some c =>
        rw [hm] at hf
        have hcr : c = r := Option.some.injEq _ _ ▸ hf
        subst hcr
        obtain ⟨y, hy, hly⟩ := firstMatch_some nm _ _ hm
        have h1 := (lookupChild_some nm y c hly).1
        have h2 := sizeT_child_lt h1
        have h3 := sizeT_mem_le hy
        omega
      | none =>
        rw [hm] at hf
        have hlen := sizeL_flatMap (x :: rest)
        have := ih ((x :: rest).flatMap DTree.children) r
          (by rw [List.length_cons] at hlen; omega) hf
        rw [List.length_cons] at hlen
        omega

theorem firstMatch_eq_none_iff (nm : String) :
    ∀ l : List DTree, firstMatch nm l = none ↔ ∀ x ∈ l, lookupChild nm x = none := by
  intro l
  induction l with
  | nil => simp [firstMatch]
  | cons x t ih =>
    rw [firstMatch]
    cases hl : lookupChild nm x with
    | some c =>
      constructor
      · intro h; exact Option.noConfusion h
      · intro h; exact absurd (h x (List.mem_cons_self _ _)) (by rw [hl]; simp)
    | none =>
      constructor
      · intro h y hy
        rcases List.mem_cons.mp hy with rfl | hy'
        · exact hl
        · exact ih.mp h y hy'
      · intro h
        exact ih.mpr (fun y hy => h y (List.mem_cons_of_mem _ hy))

/-- The BFS example of the spec: root → A → Ax → Ax-1. -/
def exRoot : DTree := .mk "" (ofList [.mk "A" (ofList [.mk "Ax" (ofList [leaf "Ax-1"])])])

/-- C6: `Find` is a breadth-first search: if no level shallower than
`k` offers a child named `nm` and level `k` does, `Find` returns that
first match — a node named `nm` lying on level `k+1`; if no level ever
matches, `Find` returns `none`; any returned node is strictly smaller
than the receiver, so the receiver itself is never returned even when
its own name matches; on the spec's example `Find` locates "Ax-1" and
misses "NoSuchName"; and the never-matching hypothesis is equivalent
to no node named `nm` appearing on any level below the receiver, i.e.
to no descendant carrying the name. -/
theorem c6_find_bfs :
    (∀ (d : DTree) (nm : String) (k : Nat) (r : DTree),
      (∀ j, j < k → firstMatch nm (levelL [d] j) = none) →
      firstMatch nm (levelL [d] k) = some r →
      Find d nm = some r ∧ r.name = nm ∧ r ∈ levelL [d] (k + 1))
    ∧ (∀ (d : DTree) (nm : String),
      (∀ k, firstMatch nm (levelL [d] k) = none) → Find d nm = none)
    ∧ (∀ (d : DTree) (nm : String) (r : DTree),
      Find d nm = some r → sizeT r < sizeT d ∧ r ≠ d)
    ∧ Find exRoot "Ax-1" = some (leaf "Ax-1")
    ∧ Find exRoot "NoSuchName" = none
    ∧ (∀ (d : DTree) (nm : String),
      (∀ k, firstMatch nm (levelL [d] k) = none)
        ↔ (∀ k, ∀ x ∈ levelL [d] (k + 1), x.name ≠ nm)) := by
  have hshift : ∀ (q : List DTree) (k : Nat),
      levelL q (k + 1) = (levelL q k).flatMap DTree.children := by
    intro q k
    induction k generalizing q with
    | zero => rfl
    | succ k ih => exact ih (q.flatMap DTree.children)
  refine ⟨?_, ?_, ?_, by rfl, by rfl, ?_⟩
  · intro d nm k r hnone hmatch
    have h1 : Find d nm = some r := by
      rw [Find, findQ_skip nm k [d] hnone, findQ_level_step, hmatch]
    obtain ⟨y, hy, hly⟩ := firstMatch_some nm _ _ hmatch
    have h2 := lookupChild_some nm y r hly
    refine ⟨h1, h2.2, ?_⟩
    rw [hshift]
    exact List.mem_flatMap.mpr ⟨y, hy, h2.1⟩
  · intro d nm hall
    exact findQ_none_aux nm (sizeL [d]) [d] (Nat.le_refl _) hall
  · intro d nm r hf
    have := findQ_size_aux nm (sizeL [d]) [d] r (Nat.le_refl _) hf
    have hsz : sizeL [d] = sizeT d := by simp [sizeL]
    rw [hsz] at this
    exact ⟨this, fun he => by rw [he] at this; omega⟩
  · intro d nm
    constructor
    · intro hall k x hx hname
      have h0 := hall k
      rw [hshift] at hx
      obtain ⟨y, hy, hc⟩ := List.mem_flatMap.mp hx
      have hly : lookupChild nm y = none := (firstMatch_eq_none_iff nm _).mp h0 y hy
      rw [lookupChild, List.find?_eq_none] at hly
      exact hly x hc (by rw [hname]; simp)
    · intro hall k
      apply (firstMatch_eq_none_iff nm _).mpr
      intro y hy
      rw [lookupChild, List.find?_eq_none]
      intro c hc hbeq
      exact hall k c (by rw [hshift]; exact List.mem_flatMap.mpr ⟨y, hy, hc⟩)
        (eq_of_beq hbeq)

/-- C6 witness: the positive clause of `c6_find_bfs` applied at the
example tree with `k = 2`: levels 0 and 1 offer no child named
"Ax-1", level 2 does, and `Find` returns it from level 3. -/
theorem c6_find_witness :
    Find exRoot "Ax-1" = some (leaf "Ax-1")
    ∧ (leaf "Ax-1").name = "Ax-1"
    ∧ leaf "Ax-1" ∈ levelL [exRoot] 3 := by
  have h := c6_find_bfs.1 exRoot "Ax-1" 2 (leaf "Ax-1")
    (fun j hj => by
      match j, hj with
      | 0, _ => rfl
      | 1, _ => rfl)
    (by rfl)
  exact h

/-! ### Sort and SortReverse (for C8) -/

theorem strLt_asymm : ∀ x y, strLt x y = true → strLt y x = false := by
  intro x
  induction x with
  | nil =>
    intro y h
    cases y with
    | nil => exact absurd h (by simp [strLt])
    | cons b bs => rfl
  | cons a as ih =>
    intro y h
    cases y with
    | nil => exact absurd h (by simp [strLt])
    | cons b bs =>
      rw [strLt] at h ⊢
      by_cases hab : a = b
      · subst hab
        rw [if_pos rfl] at h ⊢
        exact ih bs h
      · rw [if_neg hab] at h
        rw [if_neg (fun he => hab he.symm)]
        exact decide_eq_false (lt_asymm (of_decide_eq_true h))

theorem strLt_conn : ∀ x y, strLt x y = false → strLt y x = false → x = y := by
  intro x
  induction x with
  | nil =>
    intro y h1 _
    cases y with
    | nil => rfl
    | cons b bs => exact absurd h1 (by simp [strLt])
  | cons a as ih =>
    intro y h1 h2
    cases y with
    | nil => exact absurd h2 (by simp [strLt])
    | cons b bs =>
      rw [strLt] at h1 h2
      by_cases hab : a = b
      · subst hab
        rw [if_pos rfl] at h1 h2
        rw [ih bs h1 h2]
      · rw [if_neg hab] at h1
        rw [if_neg (fun he => hab he.symm)] at h2
        exact absurd (le_antisymm (le_of_not_lt (of_decide_eq_false h2))
          (le_of_not_lt (of_decide_eq_false h1))) hab

theorem strLt_trans : ∀ x y z, strLt x y = true → strLt y z = true → strLt x z = true := by
  intro x
  induction x with
  | nil =>
    intro y z h1 h2
    cases y with
    | nil => exact absurd h1 (by simp [strLt])
    | cons b bs =>
      cases z with
      | nil => exact absurd h2 (by simp [strLt])
      | cons c cs => rfl
  | cons a as ih =>
    intro y z h1 h2
    cases y with
    | nil => exact absurd h1 (by simp [strLt])
    | cons b bs =>
      cases z with
      | nil => exact absurd h2 (by simp [strLt])
      | cons c cs =>
        rw [strLt] at h1 h2 ⊢
        by_cases hab : a = b
        · subst hab
          rw [if_pos rfl] at h1
          by_cases hac : a = c
          · subst hac
            rw [if_pos rfl] at h2 ⊢
            exact ih bs cs h1 h2
          · rw [if_neg hac] at h2 ⊢
            exact h2
        · rw [if_neg hab] at h1
          have hltab : a < b := of_decide_eq_true h1
          by_cases hbc : b = c
          · subst hbc
            rw [if_neg hab]
            exact h1
          · rw [if_neg hbc] at h2
            have hltac : a < c := lt_trans hltab (of_decide_eq_true h2)
            rw [if_neg (ne_of_lt hltac)]
            exact decide_eq_true hltac

theorem stringDataEq {a b : String} (h : a.data = b.data) : a = b := by
  cases a
  cases b
  exact congrArg String.mk (by simpa using h)

theorem ascLe_antisymm {a b : DTree} (h1 : ascLe a b) (h2 : ascLe b a) :
    dString a = dString b :=
  stringDataEq (strLt_conn _ _ h2 h1)

theorem descLe_antisymm {a b : DTree} (h1 : descLe a b) (h2 : descLe b a) :
    dString a = dString b :=
  stringDataEq (strLt_conn _ _ h1 h2)

instance : IsTotal DTree ascLe :=
  ⟨fun a b => by
    cases h : strLt (keyD b) (keyD a) with
    | false => exact Or.inl h
    | true => exact Or.inr (strLt_asymm _ _ h)⟩

instance : IsTotal DTree descLe :=
  ⟨fun a b => by
    cases h : strLt (keyD a) (keyD b) with
    | false => exact Or.inl h
    | true => exact Or.inr (strLt_asymm _ _ h)⟩

instance : IsTrans DTree ascLe :=
  ⟨fun a b c hab hbc => by
    show strLt (keyD c) (keyD a) = false
    cases h : strLt (keyD c) (keyD a) with
    | false => rfl
    | true =>
      exfalso
      cases h2 : strLt (keyD b) (keyD c) with
      | false =>
        have heq := strLt_conn _ _ h2 (show strLt (keyD c) (keyD b) = false from hbc)
        rw [← heq] at h
        exact Bool.noConfusion
          ((show strLt (keyD b) (keyD a) = false from hab).symm.trans h)
      | true =>
        have h3 := strLt_trans _ _ _ h2 h
        exact Bool.noConfusion
          ((show strLt (keyD b) (keyD a) = false from hab).symm.trans h3)⟩

instance : IsTrans DTree descLe :=
  ⟨fun a b c hab hbc => by
    show strLt (keyD a) (keyD c) = false
    cases h : strLt (keyD a) (keyD c) with
    | false => rfl
    | true =>
      exfalso
      cases h2 : strLt (keyD c) (keyD b) with
      | false =>
        have heq := strLt_conn _ _ (show strLt (keyD b) (keyD c) = false from hbc) h2
        rw [← heq] at h
        exact Bool.noConfusion
          ((show strLt (keyD a) (keyD b) = false from hab).symm.trans h)
      | true =>
        have h3 := strLt_trans _ _ _ h h2
        exact Bool.noConfusion
          ((show strLt (keyD a) (keyD b) = false from hab).symm.trans h3)⟩

theorem sorted_perm_nodup_unique {r : DTree → DTree → Prop}
    (hr : ∀ a b, r a b → r b a → dString a = dString b) :
    ∀ (l1 l2 : List DTree), l1.Perm l2 → l1.Sorted r → l2.Sorted r →
      (l1.map dString).Nodup → l1 = l2 := by
  intro l1
  induction l1 with
  | nil =>
    intro l2 hp _ _ _
    exact (hp.symm.eq_nil).symm
  | cons a t ih =>
    intro l2 hp hs1 hs2 hnd
    cases l2 with
    | nil => exact absurd hp.eq_nil (by simp)
    | cons b t2 =>
      by_cases hab : a = b
      · subst hab
        have hnd' : (t.map dString).Nodup := by
          rw [List.map_cons] at hnd
          exact (List.nodup_cons.mp hnd).2
        rw [ih t2 hp.cons_inv hs1.of_cons hs2.of_cons hnd']
      · exfalso
        have hbt : b ∈ t := by
          rcases List.mem_cons.mp (hp.mem_iff.mpr (List.mem_cons_self _ _)) with he | hm
          · exact absurd he.symm hab
          · exact hm
        have hat : a ∈ t2 := by
          rcases List.mem_cons.mp (hp.mem_iff.mp (List.mem_cons_self _ _)) with he | hm
          · exact absurd he hab
          · exact hm
        have heq := hr a b (List.rel_of_sorted_cons hs1 b hbt)
          (List.rel_of_sorted_cons hs2 a hat)
        rw [List.map_cons] at hnd
        refine (List.nodup_cons.mp hnd).1 ?_
        rw [heq]
        exact List.mem_map_of_mem dString hbt

/-- C8: on a collection of nodes with pairwise-distinct display
strings, `Sort` and `SortReverse` each permute the input into the
unique list sorted by their comparator; the ascending result is the
exact reverse of the descending one, and applying either sort after
the other reproduces its own order. -/
theorem c8_sort_reverse_inverses (l : List DTree)
    (hnd : (l.map dString).Nodup) :
    (dirSort l).Perm l ∧ (dirSortReverse l).Perm l
    ∧ (dirSort l).Sorted ascLe ∧ (dirSortReverse l).Sorted descLe
    ∧ dirSort l = (dirSortReverse l).reverse
    ∧ dirSortReverse l = (dirSort l).reverse
    ∧ dirSort (dirSortReverse l) = dirSort l
    ∧ dirSortReverse (dirSort l) = dirSortReverse l := by
  have hp1 : (dirSort l).Perm l := List.perm_insertionSort ascLe l
  have hp2 : (dirSortReverse l).Perm l := List.perm_insertionSort descLe l
  have hs1 : (dirSort l).Sorted ascLe := List.sorted_insertionSort ascLe l
  have hs2 : (dirSortReverse l).Sorted descLe := List.sorted_insertionSort descLe l
  have hnd1 : ((dirSort l).map dString).Nodup := ((hp1.map dString).nodup_iff).mpr hnd
  have hrevs : ((dirSortReverse l).reverse).Sorted ascLe :=
    List.pairwise_reverse.mpr hs2
  have h5 : dirSort l = (dirSortReverse l).reverse :=
    sorted_perm_nodup_unique (fun a b h1 h2 => ascLe_antisymm h1 h2) _ _
      (hp1.trans (hp2.symm.trans (List.reverse_perm _).symm)) hs1 hrevs hnd1
  have h6 : dirSortReverse l = (dirSort l).reverse := by
    rw [h5, List.reverse_reverse]
  have h7 : dirSort (dirSortReverse l) = dirSort l :=
    sorted_perm_nodup_unique (fun a b h1 h2 => ascLe_antisymm h1 h2) _ _
      ((List.perm_insertionSort ascLe _).trans (hp2.trans hp1.symm))
      (List.sorted_insertionSort ascLe _) hs1
      (((((List.perm_insertionSort ascLe _).trans hp2).map dString).nodup_iff).mpr hnd)
  have h8 : dirSortReverse (dirSort l) = dirSortReverse l :=
    sorted_perm_nodup_unique (fun a b h1 h2 => descLe_antisymm h1 h2) _ _
      ((List.perm_insertionSort descLe _).trans (hp1.trans hp2.symm))
      (List.sorted_insertionSort descLe _) hs2
      (((((List.perm_insertionSort descLe _).trans hp1).map dString).nodup_iff).mpr hnd)
  exact ⟨hp1, hp2, hs1, hs2, h5, h6, h7, h8⟩

/-- C8 witness: `c8_sort_reverse_inverses` on three concrete
distinctly-named nodes, together with the evaluated ascending
order. -/
theorem c8_sort_witness :
    dirSort [leaf "b", leaf "a", leaf "c"]
      = (dirSortReverse [leaf "b", leaf "a", leaf "c"]).reverse
    ∧ dirSort (dirSortReverse [leaf "b", leaf "a", leaf "c"])
      = dirSort [leaf "b", leaf "a", leaf "c"]
    ∧ dirSort [leaf "b", leaf "a", leaf "c"] = [leaf "a", leaf "b", leaf "c"] := by
  have h := c8_sort_reverse_inverses [leaf "b", leaf "a", leaf "c"] (by decide)
  exact ⟨h.2.2.2.2.1, h.2.2.2.2.2.2.1, by rfl⟩

end Dirtree
